import Mathlib

/-!
Verification development for the Flower_mockup federated-learning harness.

The aggregation functions of `src/server_app/strategy/aggregate.py` operate on
lists of numpy float arrays.  We embed them shallowly:

* an array is a flat list of scalars (row-major order for 2-D arrays);
* a `ParameterSet` (the per-model list of layer arrays) is a `List` of such lists;
* IEEE-754 float arithmetic is idealised as exact rational arithmetic extended
  with the special values `+inf`, `-inf` and `NaN` (type `Fl`), so that the
  silent-NaN behaviour of numpy (e.g. `0.0 / 0`) is representable; float
  rounding and signed zeros are not modelled;
* Python exceptions (`ValueError` from numpy broadcasting, `IndexError`,
  `TypeError` from `reduce` on an empty sequence) are modelled by `Option`:
  `none` means the call raises instead of returning.

`aggregate_and_spreadout` additionally uses `torch` (one SGD step on a
`SpreadoutRegularizer` and `F.normalize`); it is embedded over `ℝ` (so that the
L2 norm is expressible) in `sgdStep`, `fnormalize` and `aggregate_and_spreadout`
below.
-/

/-- Scalar values of the idealised IEEE float model: exact rationals plus
`+inf`, `-inf` and `NaN`. -/
inductive Fl where
  | fin (q : ℚ)
  | pinf
  | ninf
  | nan
deriving DecidableEq

/-- IEEE addition on the idealised floats: `NaN` propagates, opposite
infinities give `NaN`, finite values add exactly. -/
def Fl.add : Fl → Fl → Fl
  | .nan, _ => .nan
  | _, .nan => .nan
  | .pinf, .ninf => .nan
  | .ninf, .pinf => .nan
  | .pinf, _ => .pinf
  | _, .pinf => .pinf
  | .ninf, _ => .ninf
  | _, .ninf => .ninf
  | .fin a, .fin b => .fin (a + b)

/-- IEEE negation. -/
def Fl.neg : Fl → Fl
  | .fin a => .fin (-a)
  | .pinf => .ninf
  | .ninf => .pinf
  | .nan => .nan

/-- IEEE subtraction, as addition of the negation. -/
def Fl.sub (x y : Fl) : Fl := x.add y.neg

/-- IEEE multiplication: `NaN` propagates, `0 * inf = NaN`, signs of
infinities follow the sign of the finite factor. -/
def Fl.mul : Fl → Fl → Fl
  | .nan, _ => .nan
  | _, .nan => .nan
  | .fin a, .fin b => .fin (a * b)
  | .fin a, .pinf => if 0 < a then .pinf else if a < 0 then .ninf else .nan
  | .fin a, .ninf => if 0 < a then .ninf else if a < 0 then .pinf else .nan
  | .pinf, .fin b => if 0 < b then .pinf else if b < 0 then .ninf else .nan
  | .ninf, .fin b => if 0 < b then .ninf else if b < 0 then .pinf else .nan
  | .pinf, .pinf => .pinf
  | .ninf, .ninf => .pinf
  | .pinf, .ninf => .ninf
  | .ninf, .pinf => .ninf

/-- IEEE division (signed zeros not modelled: `0` behaves as `+0`):
`0/0 = NaN`, `a/0 = ±inf` for `a ≠ 0`, `±inf / ±inf = NaN`,
finite values divide exactly. -/
def Fl.div : Fl → Fl → Fl
  | .nan, _ => .nan
  | _, .nan => .nan
  | .fin a, .fin b =>
      if b = 0 then (if a = 0 then .nan else if 0 < a then .pinf else .ninf)
      else .fin (a / b)
  | .fin _, .pinf => .fin 0
  | .fin _, .ninf => .fin 0
  | .pinf, .fin b => if 0 ≤ b then .pinf else .ninf
  | .ninf, .fin b => if 0 ≤ b then .ninf else .pinf
  | .pinf, .pinf => .nan
  | .pinf, .ninf => .nan
  | .ninf, .pinf => .nan
  | .ninf, .ninf => .nan

instance : Add Fl := ⟨Fl.add⟩

instance : Zero Fl := ⟨Fl.fin 0⟩

instance : AddCommMonoid Fl where
  add_assoc a b c := by
    cases a <;> cases b <;> cases c <;>
      first | rfl | exact congrArg Fl.fin (add_assoc _ _ _)
  zero_add a := by cases a <;> first | rfl | exact congrArg Fl.fin (zero_add _)
  add_zero a := by cases a <;> first | rfl | exact congrArg Fl.fin (add_zero _)
  add_comm a b := by
    cases a <;> cases b <;> first | rfl | exact congrArg Fl.fin (add_comm _ _)
  nsmul := nsmulRec
  nsmul_zero := fun _ => rfl
  nsmul_succ := fun _ _ => rfl

/-- The length of the shortest list among `ls` (`0` when `ls` is empty);
this is how far Python `zip(*ls)` reaches. -/
def minLen : List (List α) → ℕ
  | [] => 0
  | [l] => l.length
  | l :: ls => min l.length (minLen ls)

/-- Embedding of Python `zip(*ls)`: the list of "columns" of `ls`, truncated
at the shortest row.  `d` is a dummy default, never read, because every index
is below every row's length. -/
def zipStar (d : α) (ls : List (List α)) : List (List α) :=
  (List.range (minLen ls)).map (fun i => ls.map (fun l => l.getD i d))

/-- Embedding of a binary elementwise numpy ufunc on 1-D arrays with
broadcasting: equal lengths act pointwise, a 1-element array broadcasts,
anything else raises `ValueError` (`none`). -/
def npBroadcast (f : α → α → α) (a b : List α) : Option (List α) :=
  if a.length = b.length then some (List.zipWith f a b)
  else
    match a, b with
    | [x], b => some (b.map (fun y => f x y))
    | a, [y] => some (a.map (fun x => f x y))
    | _, _ => none

/-- Embedding of numpy in-place `+=` on 1-D arrays: the right operand must
match the left's length or be a singleton (in-place output cannot grow). -/
def npIAdd [Add α] (a b : List α) : Option (List α) :=
  if b.length = a.length then some (List.zipWith (fun x y => x + y) a b)
  else
    match b with
    | [y] => some (a.map (fun x => x + y))
    | _ => none

/-- Python-comprehension evaluation over `Option`: the first raising element
aborts the whole comprehension. -/
def listMapM (f : α → Option β) : List α → Option (List β)
  | [] => some []
  | a :: l =>
    match f a with
    | none => none
    | some b => (listMapM f l).map (fun bs => b :: bs)

/-- Sequential fold over `Option`, aborting at the first raising step. -/
def listFoldlM (f : β → α → Option β) (init : β) : List α → Option β
  | [] => some init
  | a :: l =>
    match f init a with
    | none => none
    | some b => listFoldlM f b l

/-- Embedding of `functools.reduce(np.add, layer_updates)`: `reduce` of an
empty sequence raises `TypeError` (`none`), otherwise the elementwise sums
accumulate left to right. -/
def reduceNpAdd [Add α] : List (List α) → Option (List α)
  | [] => none
  | l :: ls => listFoldlM (fun a b => npBroadcast (fun x y => x + y) a b) l ls

/-- Embedding of `aggregate` from `src/server_app/strategy/aggregate.py`:
weight every client's layers by its sample count, sum each layer position
across clients (`zip(*...)` truncates at the shortest parameter list), and
divide by the total sample count.  There is no shape or zero-denominator
guard in the source. -/
def aggregate (results : List (List (List Fl) × ℕ)) : Option (List (List Fl)) :=
  let num_examples_total : ℕ := (results.map (fun r => r.2)).sum
  let weighted_weights : List (List (List Fl)) :=
    results.map (fun r =>
      r.1.map (fun layer => layer.map (fun x => x.mul (Fl.fin (r.2 : ℚ)))))
  (listMapM reduceNpAdd (zipStar [] weighted_weights)).map (fun sums =>
    sums.map (fun layer =>
      layer.map (fun x => x.div (Fl.fin (num_examples_total : ℚ)))))

/-- Embedding of `np.sum(np.asarray(hs_fll))` on a list of scalars
(summation order of the source's fixed enumeration). -/
def flSum (l : List Fl) : Fl := l.foldl Fl.add (Fl.fin 0)

/-- Embedding of `aggregate_qffl` from `src/server_app/strategy/aggregate.py`:
scale every delta by `1 / sum(hs_fll)`, accumulate the scaled deltas per layer
(in-place numpy `+=`), and subtract the accumulated update from the current
parameters (`zip` truncates).  An empty `deltas` list raises `IndexError` at
`deltas[0]` (`none`); no length check between `deltas` and `hs_fll` exists in
the source. -/
def aggregate_qffl (parameters : List (List Fl)) (deltas : List (List (List Fl)))
    (hs_fll : List Fl) : Option (List (List Fl)) :=
  match deltas with
  | [] => none
  | d0 :: drest =>
    let demominator := flSum hs_fll
    let scale_fn := fun (client_delta : List (List Fl)) =>
      client_delta.map (fun layer => layer.map (fun x => (x.mul (Fl.fin 1)).div demominator))
    let scaled0 := scale_fn d0
    let scaledRest := drest.map scale_fn
    let updates := listMapM (fun i =>
        match scaled0.get? i with
        | none => none
        | some t0 =>
          listFoldlM (fun tmp sd =>
            match sd.get? i with
            | none => none
            | some x => npIAdd tmp x) t0 scaledRest)
      (List.range d0.length)
    match updates with
    | none => none
    | some us =>
      listMapM (fun uv =>
          (npBroadcast Fl.sub uv.1 uv.2).map (fun w => w.map (fun x => x.mul (Fl.fin 1))))
        (List.zip parameters us)

/-- Scalar configuration values carried in a Flower config dict
(`Dict[str, Scalar]`); `pynone` stands for Python `None` stored under a key,
which is distinct from the key being absent. -/
inductive Scalar where
  | int (z : ℤ)
  | float (q : ℚ)
  | str (s : String)
  | pynone
deriving DecidableEq

/-- The per-round fit configuration dict, with one optional field per key the
code reads; `none` means the key is absent from the dict. -/
structure FitInsConfig where
  local_epochs : Option Scalar
  batch_size : Option Scalar
  lr : Option Scalar
  weight_decay : Option Scalar
  criterion_name : Option Scalar
  scale : Option Scalar
  margin : Option Scalar
deriving DecidableEq

/-- Python exceptions raised by the config-handling part of
`FlowerFaceClient.fit` (`src/client_app/face_client.py`). -/
inductive FitError where
  | keyError (k : String)
  | assertionError
  | valueError
  | typeError
  | nameError
deriving DecidableEq

/-- The loss criterion `FlowerFaceClient.fit` constructs before training:
either `torch.nn.CrossEntropyLoss()` or `ArcFaceLoss(s, m)`. -/
inductive Criterion where
  | crossEntropy
  | arcFace (s m : ℚ)
deriving DecidableEq

/-- Python `int()` truncation toward zero for a rational. -/
def pyTruncInt (q : ℚ) : ℤ := Int.tdiv q.num (q.den : ℤ)

/-- Python `int(x)` on a Scalar (numeric-string parsing is not modelled; the
configs produced by the servers in this repository never store numeric
strings). -/
def pyInt : Scalar → Except FitError ℤ
  | .int z => .ok z
  | .float q => .ok (pyTruncInt q)
  | .str _ => .error .valueError
  | .pynone => .error .typeError

/-- Python `float(x)` on a Scalar (numeric-string parsing is not modelled). -/
def pyFloat : Scalar → Except FitError ℚ
  | .int z => .ok (z : ℚ)
  | .float q => .ok q
  | .str _ => .error .valueError
  | .pynone => .error .typeError

/-- Python `str(x)` on a Scalar. -/
def pyStr : Scalar → String
  | .int z => toString z
  | .float q => toString q
  | .str s => s
  | .pynone => "None"

/-- Python dict lookup `config[k]`: an absent key raises `KeyError`. -/
def lookupKey (k : String) (v : Option Scalar) : Except FitError Scalar :=
  match v with
  | some s => .ok s
  | none => .error (.keyError k)

/-- Embedding of the configuration-reading and criterion-construction part of
`FlowerFaceClient.fit`, in source order: read `local_epochs`, `batch_size`,
`lr`, `weight_decay` and `criterion_name` from the config, then build the loss
criterion — for `"ArcFace"` the source asserts `config['scale']` and
`config['margin']` are not `None` (an absent key raises `KeyError` at the
lookup) before constructing `ArcFaceLoss`.  A criterion name that matches
neither branch leaves `criterion` unbound and raises `NameError` at the
`train(...)` call, still before any training computation.  Parameter decoding
and DataLoader construction have no config-dependent failure and are not
modelled. -/
def fitSetup (cfg : FitInsConfig) : Except FitError (ℤ × ℤ × ℚ × ℚ × Criterion) :=
  lookupKey "local_epochs" cfg.local_epochs >>= fun v1 =>
  pyInt v1 >>= fun epochs =>
  lookupKey "batch_size" cfg.batch_size >>= fun v2 =>
  pyInt v2 >>= fun batch_size =>
  lookupKey "lr" cfg.lr >>= fun v3 =>
  pyFloat v3 >>= fun lr =>
  lookupKey "weight_decay" cfg.weight_decay >>= fun v4 =>
  pyFloat v4 >>= fun weight_decay =>
  lookupKey "criterion_name" cfg.criterion_name >>= fun v5 =>
  (if pyStr v5 = "CrossEntropy" then Except.ok Criterion.crossEntropy
   else if pyStr v5 = "ArcFace" then
     lookupKey "scale" cfg.scale >>= fun sv =>
     (if sv = Scalar.pynone then Except.error FitError.assertionError
      else Except.ok ()) >>= fun _ =>
     lookupKey "margin" cfg.margin >>= fun mv =>
     (if mv = Scalar.pynone then Except.error FitError.assertionError
      else Except.ok ()) >>= fun _ =>
     pyFloat sv >>= fun s =>
     pyFloat mv >>= fun m =>
     Except.ok (Criterion.arcFace s m)
   else Except.error FitError.nameError) >>= fun criterion =>
  Except.ok (epochs, batch_size, lr, weight_decay, criterion)

/-- Embedding of `FlowerFaceClient.fit`: run the config phase, then call the
training routine `tr` (the external `train` collaborator, abstracted) on the
extracted hyperparameters and criterion, returning its result. -/
def fit {α : Type} (tr : ℤ → ℤ → ℚ → ℚ → Criterion → α) (cfg : FitInsConfig) :
    Except FitError α :=
  fitSetup cfg >>= fun r => Except.ok (tr r.1 r.2.1 r.2.2.1 r.2.2.2.1 r.2.2.2.2)

/-- The CLI-level hyperparameters of `face_verification/server.py` that
`fit_config` closes over (argparse: ints, floats and the criterion string). -/
structure ServerArgs where
  local_epochs : ℤ
  batch_size : ℤ
  lr : ℚ
  weight_decay : ℚ
  criterion : String
  scale : ℚ
  margin : ℚ

/-- Embedding of `fit_config` from `face_verification/server.py`: the config
dict built for a round, from the CLI arguments only (the `server_rnd`
parameter is not used in the body). -/
def fit_config (args : ServerArgs) (server_rnd : ℤ) : FitInsConfig where
  local_epochs := some (Scalar.int args.local_epochs)
  batch_size := some (Scalar.int args.batch_size)
  lr := some (Scalar.float args.lr)
  weight_decay := some (Scalar.float args.weight_decay)
  criterion_name := some (Scalar.str args.criterion)
  scale := some (Scalar.float args.scale)
  margin := some (Scalar.float args.margin)

/-- Row assignment `embeddings[cid, :] = v` on a matrix whose rows have length
`numFeatures`: the row index must be in range (else `IndexError`), and `v`
must have matching length or be a singleton (numpy broadcast); anything else
raises `ValueError`. -/
def setRow (m : List (List ℝ)) (cid : ℕ) (v : List ℝ) (numFeatures : ℕ) :
    Option (List (List ℝ)) :=
  if cid < m.length then
    if v.length = numFeatures then some (m.set cid v)
    else if v.length = 1 then some (m.set cid (List.replicate numFeatures (v.headD 0)))
    else none
  else none

/-- Embedding of the embedding-matrix construction in `aggregate_and_spreadout`
(`src/server_app/strategy/aggregate.py`): start from
`np.zeros((num_clients, num_features))` and write each client's final layer
`weights[-1]` into the row indexed by its `cid` (`weights[-1]` on an empty
parameter list raises `IndexError`). -/
def buildEmbeddings (num_clients num_features : ℕ)
    (results : List (List (List ℝ) × ℕ × ℕ)) : Option (List (List ℝ)) :=
  listFoldlM (fun m r =>
      match r.1.getLast? with
      | none => none
      | some last => setRow m r.2.2 last num_features)
    (List.replicate num_clients (List.replicate num_features (0 : ℝ))) results

/-- Modelled from the spec: the single SGD step on the spreadout/repulsion
regularizer (`SpreadoutRegularizer` of `models/metric_learning.py`, which is
not under `src/`) — "run a fixed number of gradient-descent steps (here:
exactly one step) ... with regularization strength `nu` and step size `lr`".
The regularizer's gradient is abstracted as a function `grad` of `nu` and the
embedding matrix, and one SGD step moves every entry against the gradient,
scaled by `lr`. -/
def sgdStep (grad : ℝ → List (List ℝ) → List (List ℝ)) (nu lr : ℝ)
    (e : List (List ℝ)) : List (List ℝ) :=
  List.zipWith (fun row grow => List.zipWith (fun x g => x - lr * g) row grow) e (grad nu e)

/-- The squared-sum L2 norm of a row vector. -/
noncomputable def l2norm (r : List ℝ) : ℝ :=
  Real.sqrt ((r.map (fun x => x ^ 2)).sum)

/-- The `eps` of `torch.nn.functional.normalize` (default `1e-12`). -/
noncomputable def normEps : ℝ := 1 / 10 ^ 12

/-- Embedding of `F.normalize(embeddings)` (p = 2, dim = 1): every row is
divided by the maximum of its L2 norm and `eps`. -/
noncomputable def fnormalize (eps : ℝ) (m : List (List ℝ)) : List (List ℝ) :=
  m.map (fun r => r.map (fun x => x / max (l2norm r) eps))

/-- Embedding of `aggregate_and_spreadout` from
`src/server_app/strategy/aggregate.py`: build the client-embedding matrix,
run one SGD step of the spreadout regularizer (see `sgdStep`) and L2-normalize
its rows; then weighted-average all layers except the final one exactly as
`aggregate` does, append the normalized embedding matrix (its row-major
flattening, under the flat-list representation of arrays) as the new final
layer, and return the pair of the new parameter list and the matrix.  Numpy
float arithmetic is idealised here as exact reals (no NaN or infinity is
modelled: the properties verified about this function only concern inputs
with a positive total sample count). -/
noncomputable def aggregate_and_spreadout (grad : ℝ → List (List ℝ) → List (List ℝ))
    (results : List (List (List ℝ) × ℕ × ℕ)) (num_clients num_features : ℕ)
    (nu lr : ℝ) : Option (List (List ℝ) × List (List ℝ)) :=
  match buildEmbeddings num_clients num_features results with
  | none => none
  | some e0 =>
    let embeddings := fnormalize normEps (sgdStep grad nu lr e0)
    let num_examples_total : ℕ := (results.map (fun r => r.2.1)).sum
    let feature_weights : List (List (List ℝ)) :=
      results.map (fun r =>
        r.1.dropLast.map (fun layer => layer.map (fun x => x * (r.2.1 : ℝ))))
    match listMapM reduceNpAdd (zipStar [] feature_weights) with
    | none => none
    | some sums =>
      let weights_prime :=
        sums.map (fun layer => layer.map (fun x => x / (num_examples_total : ℝ)))
      some (weights_prime ++ [embeddings.flatten], embeddings)

/-! ## Helper lemmas -/

theorem Fl.zero_def : (0 : Fl) = Fl.fin 0 := rfl

theorem Fl.add_fin (a b : ℚ) : Fl.fin a + Fl.fin b = Fl.fin (a + b) := rfl

theorem Fl.mul_fin (a b : ℚ) : (Fl.fin a).mul (Fl.fin b) = Fl.fin (a * b) := rfl

theorem Fl.div_fin (a b : ℚ) (h : b ≠ 0) :
    (Fl.fin a).div (Fl.fin b) = Fl.fin (a / b) := by
  simp [Fl.div, h]

theorem Fl.div_zero_zero : (Fl.fin 0).div (Fl.fin 0) = Fl.nan := by
  simp [Fl.div]

theorem Fl.sub_fin_zero (x : Fl) : x.sub (Fl.fin 0) = x := by
  cases x <;> simp [Fl.sub, Fl.neg, Fl.add]

theorem Fl.mul_fin_one (x : Fl) : x.mul (Fl.fin 1) = x := by
  cases x <;> simp [Fl.mul]

theorem range_map_getD (l : List α) (d : α) :
    (List.range l.length).map (fun i => l.getD i d) = l := by
  apply List.ext_getElem
  · simp
  · intro i h1 h2
    simp [List.getD_eq_getElem?_getD, List.getElem?_eq_getElem h2]

theorem range_map_getD' (l : List α) (d : α) (L : ℕ) (hL : l.length = L) :
    (List.range L).map (fun i => l.getD i d) = l := by
  subst hL; exact range_map_getD l d

theorem getD_eq_getElem (l : List α) (d : α) (i : ℕ) (h : i < l.length) :
    l.getD i d = l[i] := by
  simp [List.getD_eq_getElem?_getD, List.getElem?_eq_getElem h]

theorem getD_map_of_lt (f : α → β) (l : List α) (i : ℕ) (h : i < l.length)
    (d : β) (d' : α) : (l.map f).getD i d = f (l.getD i d') := by
  rw [getD_eq_getElem _ _ _ (by simpa using h), getD_eq_getElem _ _ _ h]
  simp

theorem minLen_eq_of_uniform (ls : List (List α)) (L : ℕ) (hne : ls ≠ [])
    (h : ∀ l ∈ ls, l.length = L) : minLen ls = L := by
  induction ls with
  | nil => exact absurd rfl hne
  | cons l ls ih =>
    cases ls with
    | nil => simpa [minLen] using h l (by simp)
    | cons l2 ls2 =>
      have h1 : l.length = L := h l (by simp)
      have h2 : minLen (l2 :: ls2) = L :=
        ih (by simp) (fun x hx => h x (List.mem_cons_of_mem _ hx))
      show min l.length (minLen (l2 :: ls2)) = L
      rw [h1, h2, min_self]

theorem zipStar_eq_of_uniform (d : α) (ls : List (List α)) (L : ℕ) (hne : ls ≠ [])
    (h : ∀ l ∈ ls, l.length = L) :
    zipStar d ls = (List.range L).map (fun i => ls.map (fun l => l.getD i d)) := by
  unfold zipStar
  rw [minLen_eq_of_uniform ls L hne h]

theorem npBroadcast_eq_of_length (f : α → α → α) (a b : List α)
    (h : a.length = b.length) : npBroadcast f a b = some (List.zipWith f a b) := by
  simp [npBroadcast, h]

theorem npIAdd_eq_of_length [Add α] (a b : List α) (h : b.length = a.length) :
    npIAdd a b = some (List.zipWith (fun x y => x + y) a b) := by
  simp [npIAdd, h]

theorem listMapM_eq_map (f : α → Option β) (g : α → β) (l : List α)
    (h : ∀ x ∈ l, f x = some (g x)) : listMapM f l = some (l.map g) := by
  induction l with
  | nil => rfl
  | cons a l ih =>
    simp only [listMapM, h a (by simp), List.map_cons]
    rw [ih (fun x hx => h x (List.mem_cons_of_mem _ hx))]
    rfl

theorem listMapM_map (f : β → Option γ) (g : α → β) (l : List α) :
    listMapM f (l.map g) = listMapM (fun x => f (g x)) l := by
  induction l with
  | nil => rfl
  | cons a l ih => simp only [List.map_cons, listMapM, ih]

theorem listFoldlM_npAdd_sum {M : Type} [AddCommMonoid M] (ls : List (List M))
    (acc : List M) (L : ℕ) (hacc : acc.length = L) (h : ∀ l ∈ ls, l.length = L) :
    listFoldlM (fun a b => npBroadcast (fun x y => x + y) a b) acc ls =
      some ((List.range L).map (fun j =>
        acc.getD j 0 + (ls.map (fun l => l.getD j 0)).sum)) := by
  induction ls generalizing acc with
  | nil =>
    simp only [listFoldlM, List.map_nil, List.sum_nil, add_zero]
    rw [range_map_getD' acc 0 L hacc]
  | cons l ls ih =>
    have hl : l.length = L := h l (by simp)
    simp only [listFoldlM]
    rw [npBroadcast_eq_of_length _ _ _ (by rw [hacc, hl])]
    have hlen : (List.zipWith (fun x y => x + y) acc l).length = L := by
      simp [hacc, hl]
    show listFoldlM _ (List.zipWith (fun x y => x + y) acc l) ls = _
    rw [ih _ hlen (fun x hx => h x (List.mem_cons_of_mem _ hx))]
    congr 1
    apply List.map_congr_left
    intro j hj
    have hjL : j < L := List.mem_range.mp hj
    have hz : (List.zipWith (fun x y => x + y) acc l).getD j 0 =
        acc.getD j 0 + l.getD j 0 := by
      rw [getD_eq_getElem _ _ _ (by rw [hlen]; exact hjL),
        getD_eq_getElem _ _ _ (by rw [hacc]; exact hjL),
        getD_eq_getElem _ _ _ (by rw [hl]; exact hjL)]
      simp
    rw [hz, List.map_cons, List.sum_cons, add_assoc]

theorem reduceNpAdd_sum {M : Type} [AddCommMonoid M] (ls : List (List M)) (L : ℕ)
    (hne : ls ≠ []) (h : ∀ l ∈ ls, l.length = L) :
    reduceNpAdd ls =
      some ((List.range L).map (fun j => (ls.map (fun l => l.getD j 0)).sum)) := by
  cases ls with
  | nil => exact absurd rfl hne
  | cons l ls =>
    show listFoldlM _ l ls = _
    rw [listFoldlM_npAdd_sum ls l L (h l (by simp))
      (fun x hx => h x (List.mem_cons_of_mem _ hx))]
    simp

theorem sum_map_fin (l : List α) (g : α → ℚ) :
    (l.map (fun x => Fl.fin (g x))).sum = Fl.fin ((l.map g).sum) := by
  induction l with
  | nil => rfl
  | cons a l ih => simp [ih, Fl.add_fin]

theorem map_snd_inject (results : List (List (List ℚ) × ℕ)) :
    (results.map (fun r => (r.1.map (fun layer => layer.map Fl.fin), r.2))).map
        (fun r => r.2) =
      results.map (fun r => r.2) := by
  simp [List.map_map, Function.comp]

theorem map_weight_inject (results : List (List (List ℚ) × ℕ)) :
    (results.map (fun r => (r.1.map (fun layer => layer.map Fl.fin), r.2))).map
        (fun r => r.1.map (fun layer => layer.map (fun x => x.mul (Fl.fin (r.2 : ℚ))))) =
      results.map (fun r =>
        r.1.map (fun layer => layer.map (fun v => Fl.fin (v * (r.2 : ℚ))))) := by
  simp only [List.map_map]
  apply List.map_congr_left
  intro r _
  simp [List.map_map, Function.comp, Fl.mul_fin]

theorem aggregate_inject_eq
    (results : List (List (List ℚ) × ℕ)) (shape : List ℕ)
    (hne : results ≠ [])
    (hshape : ∀ r ∈ results, r.1.length = shape.length ∧
      ∀ i, i < shape.length → (r.1.getD i []).length = shape.getD i 0) :
    aggregate (results.map (fun r => (r.1.map (fun layer => layer.map Fl.fin), r.2))) =
      some ((List.range shape.length).map (fun i =>
        (List.range (shape.getD i 0)).map (fun j =>
          (Fl.fin ((results.map (fun r =>
              ((r.1.getD i []).getD j 0) * (r.2 : ℚ))).sum)).div
            (Fl.fin (((results.map (fun r => r.2)).sum : ℕ) : ℚ))))) := by
  simp only [aggregate, map_snd_inject, map_weight_inject]
  set W := results.map (fun r =>
    r.1.map (fun layer => layer.map (fun v => Fl.fin (v * (r.2 : ℚ))))) with hW
  have hWne : W ≠ [] := by
    rw [hW]; simpa using hne
  have hWlen : ∀ w ∈ W, w.length = shape.length := by
    intro w hw
    rw [hW] at hw
    obtain ⟨r, hr, rfl⟩ := List.mem_map.mp hw
    simpa using (hshape r hr).1
  rw [zipStar_eq_of_uniform [] W shape.length hWne hWlen, listMapM_map]
  rw [listMapM_eq_map _ (fun i => (List.range (shape.getD i 0)).map (fun j =>
      Fl.fin ((results.map (fun r =>
        ((r.1.getD i []).getD j 0) * (r.2 : ℚ))).sum))) _ ?_]
  · simp only [Option.map_some', List.map_map]
    congr 1
    apply List.map_congr_left
    intro i _
    simp only [Function.comp_apply, List.map_map]
    rfl
  · intro i hi
    have hiL : i < shape.length := List.mem_range.mp hi
    have hcol : W.map (fun l => l.getD i []) =
        results.map (fun r =>
          (r.1.getD i []).map (fun v => Fl.fin (v * (r.2 : ℚ)))) := by
      rw [hW, List.map_map]
      apply List.map_congr_left
      intro r hr
      exact getD_map_of_lt _ _ i ((hshape r hr).1 ▸ hiL) [] []
    rw [hcol, reduceNpAdd_sum _ (shape.getD i 0)
      (by simpa using hne)
      (by
        intro l hl
        obtain ⟨r, hr, rfl⟩ := List.mem_map.mp hl
        simpa using (hshape r hr).2 i hiL)]
    congr 1
    apply List.map_congr_left
    intro j hj
    have hjL : j < shape.getD i 0 := List.mem_range.mp hj
    have : (results.map (fun r =>
        (r.1.getD i []).map (fun v => Fl.fin (v * (r.2 : ℚ))))).map
          (fun l => l.getD j 0) =
        results.map (fun r => Fl.fin (((r.1.getD i []).getD j 0) * (r.2 : ℚ))) := by
      rw [List.map_map]
      apply List.map_congr_left
      intro r hr
      have hjlen : j < (r.1.getD i []).length := by
        rw [(hshape r hr).2 i hiL]; exact hjL
      exact getD_map_of_lt _ _ j hjlen 0 0
    rw [this, sum_map_fin]

/-- C1: for every non-empty list of structurally identical rational-valued
`ParameterSet`s with positive total sample count, `aggregate` succeeds and
entry `j` of layer `i` of the result is the exact weighted mean
`Σ_c (sample_count_c * layer_i_c[j]) / Σ_c sample_count_c`. -/
theorem C1_aggregate_weighted_mean
    (results : List (List (List ℚ) × ℕ)) (shape : List ℕ)
    (hne : results ≠ [])
    (hshape : ∀ r ∈ results, r.1.length = shape.length ∧
      ∀ i, i < shape.length → (r.1.getD i []).length = shape.getD i 0)
    (hpos : 0 < (results.map (fun r => r.2)).sum) :
    aggregate (results.map (fun r => (r.1.map (fun layer => layer.map Fl.fin), r.2))) =
      some ((List.range shape.length).map (fun i =>
        (List.range (shape.getD i 0)).map (fun j =>
          Fl.fin ((results.map (fun r =>
              (r.2 : ℚ) * ((r.1.getD i []).getD j 0))).sum /
            (((results.map (fun r => r.2)).sum : ℕ) : ℚ))))) := by
  have hNq : (((results.map (fun r => r.2)).sum : ℕ) : ℚ) ≠ 0 := by
    exact_mod_cast hpos.ne'
  rw [aggregate_inject_eq results shape hne hshape]
  congr 1
  apply List.map_congr_left
  intro i _
  apply List.map_congr_left
  intro j _
  rw [Fl.div_fin _ _ hNq]
  congr 2
  apply congrArg List.sum
  apply List.map_congr_left
  intro r _
  exact mul_comm _ _

/-- Witness for C1 at the spec's own example: clients `[2.0]` with sample
count 1 and `[4.0]` with sample count 3 aggregate to `[3.5]`. -/
theorem C1_witness :
    aggregate [([[Fl.fin 2]], 1), ([[Fl.fin 4]], 3)] = some [[Fl.fin (7 / 2)]] := by
  have h := C1_aggregate_weighted_mean [([[2]], 1), ([[4]], 3)] [1]
    (by decide) (by decide) (by decide)
  refine h.trans ?_
  norm_num [List.range_succ]

/-- C2 counterexample: two `ParameterSet`s with 3 and 2 layers do NOT make
`aggregate` fail; `zip(*...)` silently truncates and a 2-layer result is
returned (the weighted means of the shared prefix). -/
theorem C2_counterexample :
    aggregate [([[Fl.fin 1], [Fl.fin 2], [Fl.fin 3]], 1), ([[Fl.fin 4], [Fl.fin 5]], 1)] =
      some [[Fl.fin (5 / 2)], [Fl.fin (7 / 2)]] := by
  norm_num [aggregate, zipStar, minLen, List.range_succ, listMapM, reduceNpAdd,
    listFoldlM, npBroadcast, Fl.mul, Fl.div, Fl.add_fin]

/-- C2 amended: `aggregate` performs no layer-count validation; for two
clients whose `ParameterSet`s have 3 and 2 single-element layers, it silently
returns a 2-layer result holding the weighted means of the two shared layer
positions (the third layer is dropped by `zip`). -/
theorem C2_amended_zip_truncates (a1 a2 a3 b1 b2 : ℚ) (n m : ℕ) (h : 0 < n + m) :
    aggregate [([[Fl.fin a1], [Fl.fin a2], [Fl.fin a3]], n), ([[Fl.fin b1], [Fl.fin b2]], m)] =
      some [[Fl.fin ((a1 * n + b1 * m) / (n + m))],
        [Fl.fin ((a2 * n + b2 * m) / (n + m))]] := by
  have hq : ((n : ℚ) + (m : ℚ)) ≠ 0 := by
    have h0 : (0 : ℚ) < (n : ℚ) + (m : ℚ) := by exact_mod_cast h
    exact h0.ne'
  norm_num [aggregate, zipStar, minLen, List.range_succ, listMapM, reduceNpAdd,
    listFoldlM, npBroadcast, Fl.mul, Fl.div, Fl.add_fin, hq]

/-- Witness for the amended C2 at a concrete input. -/
theorem C2_witness :
    aggregate [([[Fl.fin 0], [Fl.fin 1], [Fl.fin 7]], 1), ([[Fl.fin 2], [Fl.fin 3]], 3)] =
      some [[Fl.fin (3 / 2)], [Fl.fin (5 / 2)]] := by
  have h := C2_amended_zip_truncates 0 1 7 2 3 1 3 (by norm_num)
  refine h.trans ?_
  norm_num

/-- C3 counterexample: with every sample count 0, `aggregate` does NOT fail
with a defined error; it silently returns `[[NaN]]` (numpy `0.0 / 0`). -/
theorem C3_counterexample :
    aggregate [([[Fl.fin 2]], 0), ([[Fl.fin 4]], 0)] = some [[Fl.nan]] := by
  norm_num [aggregate, zipStar, minLen, List.range_succ, listMapM, reduceNpAdd,
    listFoldlM, npBroadcast, Fl.mul, Fl.div, Fl.add_fin]

/-- C3 amended: for every non-empty, shape-uniform input whose sample counts
are all 0, `aggregate` silently returns a `ParameterSet` of the same shape
with every entry `NaN`, instead of failing with a defined error. -/
theorem C3_amended_zero_counts_nan
    (results : List (List (List ℚ) × ℕ)) (shape : List ℕ)
    (hne : results ≠ [])
    (hshape : ∀ r ∈ results, r.1.length = shape.length ∧
      ∀ i, i < shape.length → (r.1.getD i []).length = shape.getD i 0)
    (hzero : ∀ r ∈ results, r.2 = 0) :
    aggregate (results.map (fun r => (r.1.map (fun layer => layer.map Fl.fin), r.2))) =
      some ((List.range shape.length).map (fun i =>
        (List.range (shape.getD i 0)).map (fun _ => Fl.nan))) := by
  rw [aggregate_inject_eq results shape hne hshape]
  have htot : (results.map (fun r => r.2)).sum = 0 := by
    apply List.sum_eq_zero
    intro x hx
    obtain ⟨r, hr, rfl⟩ := List.mem_map.mp hx
    exact hzero r hr
  congr 1
  apply List.map_congr_left
  intro i _
  apply List.map_congr_left
  intro j _
  have hs : (results.map (fun r => ((r.1.getD i []).getD j 0) * (r.2 : ℚ))).sum = 0 := by
    apply List.sum_eq_zero
    intro x hx
    obtain ⟨r, hr, rfl⟩ := List.mem_map.mp hx
    rw [hzero r hr]
    simp
  rw [hs, htot]
  simp [Fl.div]

/-- Witness for the amended C3 at a concrete input. -/
theorem C3_witness :
    aggregate [([[Fl.fin 3]], 0)] = some [[Fl.nan]] := by
  have h := C3_amended_zero_counts_nan [([[3]], 0)] [1]
    (by decide) (by decide) (by decide)
  refine h.trans ?_
  norm_num [List.range_succ]

theorem foldl_add_replicate_fin (k : ℕ) (a b : ℚ) :
    List.foldl Fl.add (Fl.fin a) (List.replicate k (Fl.fin b)) = Fl.fin (a + k * b) := by
  induction k generalizing a with
  | zero => simp
  | succ k ih =>
    rw [List.replicate_succ, List.foldl_cons]
    show List.foldl Fl.add (Fl.fin (a + b)) _ = _
    rw [ih]
    congr 1
    push_cast
    ring

theorem flSum_replicate (k : ℕ) (b : ℚ) :
    flSum (List.replicate k (Fl.fin b)) = Fl.fin (k * b) := by
  unfold flSum
  rw [foldl_add_replicate_fin]
  norm_num

theorem Fl.sub_zero_mul_one (x : Fl) : (x.sub (Fl.fin 0)).mul (Fl.fin 1) = x := by
  rw [Fl.sub_fin_zero, Fl.mul_fin_one]

theorem zipWith_replicate_self (f : α → α → α) (a b : α) (L : ℕ) :
    List.zipWith f (List.replicate L a) (List.replicate L b) = List.replicate L (f a b) := by
  induction L with
  | zero => rfl
  | succ L ih => simp [List.replicate_succ, ih]

theorem zipWith_replicate_right (f : α → β → α) (l : List α) (b : β) :
    List.zipWith f l (List.replicate l.length b) = l.map (fun x => f x b) := by
  induction l with
  | nil => rfl
  | cons a l ih => simp [List.replicate_succ, ih]

theorem zip_map_self (f : α → β) (l : List α) :
    l.zip (l.map f) = l.map (fun a => (a, f a)) := by
  induction l with
  | nil => rfl
  | cons a l ih => simp [ih]

theorem npIAdd_replicate_zero (L : ℕ) :
    npIAdd (List.replicate L (Fl.fin 0)) (List.replicate L (Fl.fin 0)) =
      some (List.replicate L (Fl.fin 0)) := by
  rw [npIAdd_eq_of_length _ _ (by simp), zipWith_replicate_self]
  norm_num [Fl.add_fin]

theorem listFoldlM_getzero (L : ℕ) (i : ℕ) (rest : List (List (List Fl)))
    (hall : ∀ sd ∈ rest, sd.get? i = some (List.replicate L (Fl.fin 0))) :
    listFoldlM (fun tmp sd =>
        match sd.get? i with
        | none => none
        | some x => npIAdd tmp x)
      (List.replicate L (Fl.fin 0)) rest = some (List.replicate L (Fl.fin 0)) := by
  induction rest with
  | nil => rfl
  | cons sd rest ih =>
    simp only [listFoldlM, hall sd (by simp), npIAdd_replicate_zero]
    exact ih (fun x hx => hall x (List.mem_cons_of_mem _ hx))

/-- C5: the Q-FFL identity — with any current parameters, a non-empty list of
all-zero deltas structurally matching them, and a non-empty list of equal
nonzero fairness weights, `aggregate_qffl` returns the parameters
unchanged. -/
theorem C5_qffl_identity
    (p : List (List Fl)) (deltas : List (List (List Fl))) (k : ℕ) (h : ℚ)
    (hne : deltas ≠ [])
    (hd : ∀ d ∈ deltas, d = p.map (fun layer => List.replicate layer.length (Fl.fin 0)))
    (hk : 0 < k) (hh : h ≠ 0) :
    aggregate_qffl p deltas (List.replicate k (Fl.fin h)) = some p := by
  obtain ⟨d0, drest, rfl⟩ : ∃ d0 drest, deltas = d0 :: drest := by
    cases deltas with
    | nil => exact absurd rfl hne
    | cons a l => exact ⟨a, l, rfl⟩
  have hkh : ((k : ℚ)) * h ≠ 0 :=
    mul_ne_zero (Nat.cast_ne_zero.mpr hk.ne') hh
  have hd0 : d0 = p.map (fun layer => List.replicate layer.length (Fl.fin 0)) :=
    hd d0 (by simp)
  simp only [aggregate_qffl, flSum_replicate]
  rw [hd0]
  have hscale0 : (p.map (fun layer => List.replicate layer.length (Fl.fin 0))).map
      (fun layer => layer.map (fun x => (x.mul (Fl.fin 1)).div (Fl.fin ((k : ℚ) * h)))) =
      p.map (fun layer => List.replicate layer.length (Fl.fin 0)) := by
    rw [List.map_map]
    apply List.map_congr_left
    intro layer _
    show (List.replicate layer.length (Fl.fin 0)).map _ = _
    rw [List.map_replicate]
    congr 1
    rw [Fl.mul_fin, Fl.div_fin _ _ hkh]
    norm_num
  have hrest : drest.map (fun d =>
      d.map (fun layer => layer.map (fun x => (x.mul (Fl.fin 1)).div (Fl.fin ((k : ℚ) * h))))) =
      drest.map (fun _ => p.map (fun layer => List.replicate layer.length (Fl.fin 0))) := by
    apply List.map_congr_left
    intro d hdm
    rw [hd d (List.mem_cons_of_mem _ hdm)]
    exact hscale0
  rw [hscale0, hrest]
  have hget : ∀ i, i < p.length →
      (p.map (fun layer => List.replicate layer.length (Fl.fin 0))).get? i =
        some (List.replicate (p.getD i []).length (Fl.fin 0)) := by
    intro i hi
    rw [List.get?_eq_getElem?, List.getElem?_map, List.getElem?_eq_getElem hi]
    simp [List.getD_eq_getElem?_getD, List.getElem?_eq_getElem hi]
  have hupd : listMapM (fun i =>
      match (p.map (fun layer => List.replicate layer.length (Fl.fin 0))).get? i with
      | none => none
      | some t0 =>
        listFoldlM (fun tmp sd =>
            match sd.get? i with
            | none => none
            | some x => npIAdd tmp x) t0
          (drest.map (fun _ => p.map (fun layer => List.replicate layer.length (Fl.fin 0)))))
      (List.range (p.map (fun layer => List.replicate layer.length (Fl.fin 0))).length) =
      some (p.map (fun layer => List.replicate layer.length (Fl.fin 0))) := by
    rw [List.length_map]
    rw [listMapM_eq_map _
      (fun i => List.replicate ((p.getD i []).length) (Fl.fin 0)) _ ?_]
    · congr 1
      apply List.ext_getElem
      · simp
      · intro i h1 h2
        simp only [List.getElem_map, List.getElem_range]
        rw [getD_eq_getElem p [] i (by simpa using h2)]
    · intro i hi
      have hiL : i < p.length := List.mem_range.mp hi
      simp only [hget i hiL]
      exact listFoldlM_getzero _ i _ (by
        intro sd hsd
        obtain ⟨d, hdm, rfl⟩ := List.mem_map.mp hsd
        exact hget i hiL)
  rw [hupd]
  show listMapM (fun uv => Option.map (fun w => List.map (fun x => x.mul (Fl.fin 1)) w)
      (npBroadcast Fl.sub uv.1 uv.2))
    (p.zip (List.map (fun layer => List.replicate layer.length (Fl.fin 0)) p)) = some p
  rw [zip_map_self, listMapM_map]
  rw [listMapM_eq_map _ (fun layer => layer) _ ?_]
  · rw [List.map_id']
  · intro layer _
    show (npBroadcast Fl.sub layer (List.replicate layer.length (Fl.fin 0))).map _ = _
    rw [npBroadcast_eq_of_length _ _ _ (by simp), zipWith_replicate_right]
    show some _ = _
    congr 1
    show List.map (fun x => x.mul (Fl.fin 1)) (List.map (fun x => x.sub (Fl.fin 0)) layer) = layer
    rw [List.map_map]
    calc layer.map ((fun x => x.mul (Fl.fin 1)) ∘ fun x => x.sub (Fl.fin 0)) =
        layer.map (fun x => x) := by
          apply List.map_congr_left
          intro x _
          exact Fl.sub_zero_mul_one x
      _ = layer := List.map_id' layer

/-- Witness for C5 at a concrete input. -/
theorem C5_witness :
    aggregate_qffl [[Fl.fin 1, Fl.fin 2]] [[[Fl.fin 0, Fl.fin 0]]]
      (List.replicate 1 (Fl.fin 1)) = some [[Fl.fin 1, Fl.fin 2]] :=
  C5_qffl_identity [[Fl.fin 1, Fl.fin 2]] [[[Fl.fin 0, Fl.fin 0]]] 1 1
    (by decide) (by decide) (by decide) (by norm_num)

/-- C6 counterexample: `aggregate_qffl` with 2 deltas but only 1 fairness
weight does NOT fail; it silently returns a result (here `[[-5]]`). -/
theorem C6_counterexample :
    aggregate_qffl [[Fl.fin 1]] [[[Fl.fin 2]], [[Fl.fin 4]]] [Fl.fin 1] =
      some [[Fl.fin (-5)]] := by
  norm_num [aggregate_qffl, flSum, listMapM, listFoldlM, npIAdd, npBroadcast,
    List.range_succ, Fl.mul, Fl.div, Fl.add_fin, Fl.sub, Fl.neg, Fl.add]

/-- C6 amended: `aggregate_qffl` performs no `len(deltas) == len(hs)`
validation; with two single-entry deltas `b`, `c` and a single fairness
weight `h ≠ 0` it silently returns `a - (b + c)/h` instead of failing with
any error. -/
theorem C6_amended_no_length_check (a b c hw : ℚ) (hh : hw ≠ 0) :
    aggregate_qffl [[Fl.fin a]] [[[Fl.fin b]], [[Fl.fin c]]] [Fl.fin hw] =
      some [[Fl.fin (a - (b + c) / hw)]] := by
  norm_num [aggregate_qffl, flSum, listMapM, listFoldlM, npIAdd, npBroadcast,
    List.range_succ, Fl.mul, Fl.div, Fl.add_fin, Fl.sub, Fl.neg, Fl.add, hh]
  ring_nf

/-- Witness for the amended C6 at a concrete input. -/
theorem C6_witness :
    aggregate_qffl [[Fl.fin 0]] [[[Fl.fin 1]], [[Fl.fin 1]]] [Fl.fin 2] =
      some [[Fl.fin (-1)]] := by
  have h := C6_amended_no_length_check 0 1 1 2 (by norm_num)
  refine h.trans ?_
  norm_num

theorem lookupKey_some (k : String) (s : Scalar) : lookupKey k (some s) = Except.ok s := rfl

theorem lookupKey_none (k : String) :
    lookupKey k none = Except.error (FitError.keyError k) := rfl

theorem except_ok_bind {γ δ : Type} (v : γ) (f : γ → Except FitError δ) :
    (Except.ok v >>= f) = f v := rfl

theorem except_error_bind {γ δ : Type} (e : FitError) (f : γ → Except FitError δ) :
    ((Except.error e : Except FitError γ) >>= f) = Except.error e := rfl

theorem except_bind_exists {γ δ : Type} (x : Except FitError γ)
    (f : γ → Except FitError δ)
    (h : ∀ v, x = Except.ok v → ∃ e, f v = Except.error e) :
    ∃ e, (x >>= f) = Except.error e := by
  cases x with
  | error e => exact ⟨e, rfl⟩
  | ok v =>
    obtain ⟨e, he⟩ := h v rfl
    exact ⟨e, by rw [except_ok_bind]; exact he⟩

theorem except_bind_error_of {γ δ : Type} (x : Except FitError γ)
    (f : γ → Except FitError δ) (h : ∃ e, x = Except.error e) :
    ∃ e, (x >>= f) = Except.error e := by
  obtain ⟨e, he⟩ := h
  exact ⟨e, by rw [he]; rfl⟩

/-- C8: a fit call whose config selects `"ArcFace"` but is missing the
`scale` or the `margin` key fails with a config error (the source's
`KeyError` / `AssertionError`), and the result does not depend on the
training routine — the error is surfaced before any training computation. -/
theorem C8_arcface_missing_hyperparameter
    (cfg : FitInsConfig)
    (hcn : cfg.criterion_name = some (Scalar.str "ArcFace"))
    (hmiss : cfg.scale = none ∨ cfg.margin = none) :
    ∃ e : FitError, ∀ (α : Type) (tr : ℤ → ℤ → ℚ → ℚ → Criterion → α),
      fit tr cfg = Except.error e := by
  have hsetup : ∃ e, fitSetup cfg = Except.error e := by
    unfold fitSetup
    apply except_bind_exists
    intro v1 _
    apply except_bind_exists
    intro epochs _
    apply except_bind_exists
    intro v2 _
    apply except_bind_exists
    intro batch _
    apply except_bind_exists
    intro v3 _
    apply except_bind_exists
    intro lr _
    apply except_bind_exists
    intro v4 _
    apply except_bind_exists
    intro wd _
    rw [hcn]
    simp only [lookupKey_some, except_ok_bind]
    rw [if_neg (by decide : ¬ (pyStr (Scalar.str "ArcFace") = "CrossEntropy"))]
    rw [if_pos (by decide : pyStr (Scalar.str "ArcFace") = "ArcFace")]
    apply except_bind_error_of
    rcases hmiss with hs | hm
    · rw [hs, lookupKey_none, except_error_bind]
      exact ⟨_, rfl⟩
    · apply except_bind_exists
      intro sv _
      by_cases hpn : sv = Scalar.pynone
      · rw [if_pos hpn, except_error_bind]
        exact ⟨_, rfl⟩
      · rw [if_neg hpn, except_ok_bind, hm, lookupKey_none, except_error_bind]
        exact ⟨_, rfl⟩
  obtain ⟨e, he⟩ := hsetup
  refine ⟨e, fun α tr => ?_⟩
  unfold fit
  rw [he, except_error_bind]

/-- Witness for C8 at a concrete config: `"ArcFace"` selected, `scale`
absent, everything else present. -/
theorem C8_witness :
    ∃ e : FitError, ∀ (α : Type) (tr : ℤ → ℤ → ℚ → ℚ → Criterion → α),
      fit tr ({ local_epochs := some (Scalar.int 5), batch_size := some (Scalar.int 10),
                lr := some (Scalar.float 1), weight_decay := some (Scalar.float 0),
                criterion_name := some (Scalar.str "ArcFace"), scale := none,
                margin := some (Scalar.float 1) } : FitInsConfig) = Except.error e :=
  C8_arcface_missing_hyperparameter _ rfl (Or.inl rfl)

/-- C9: the per-round fit configuration broadcast by the server does not
depend on the round number, and consists exactly of the static CLI-level
hyperparameters `local_epochs`, `batch_size`, `lr`, `weight_decay`,
`criterion_name`, `scale` and `margin`. -/
theorem C9_fit_config_round_independent (args : ServerArgs) (r1 r2 : ℤ) :
    fit_config args r1 = fit_config args r2 ∧
      fit_config args r1 =
        { local_epochs := some (Scalar.int args.local_epochs),
          batch_size := some (Scalar.int args.batch_size),
          lr := some (Scalar.float args.lr),
          weight_decay := some (Scalar.float args.weight_decay),
          criterion_name := some (Scalar.str args.criterion),
          scale := some (Scalar.float args.scale),
          margin := some (Scalar.float args.margin) } :=
  ⟨rfl, rfl⟩

theorem normEps_pos : (0 : ℝ) < normEps := by
  unfold normEps
  norm_num

theorem sum_map_div (l : List α) (g : α → ℝ) (d : ℝ) :
    (l.map (fun x => g x / d)).sum = (l.map g).sum / d := by
  induction l with
  | nil => simp
  | cons a l ih => simp [ih, add_div]

theorem l2norm_nonneg (r : List ℝ) : 0 ≤ l2norm r := Real.sqrt_nonneg _

theorem l2norm_map_div (r : List ℝ) (c : ℝ) (hc : 0 ≤ c) :
    l2norm (r.map (fun x => x / c)) = l2norm r / c := by
  unfold l2norm
  rw [List.map_map]
  have h1 : (r.map ((fun x => x ^ 2) ∘ fun x => x / c)) =
      r.map (fun x => x ^ 2 / c ^ 2) := by
    apply List.map_congr_left
    intro x _
    simp [div_pow]
  have hs : 0 ≤ (r.map (fun x => x ^ 2)).sum := by
    apply List.sum_nonneg
    intro x hx
    obtain ⟨y, _, rfl⟩ := List.mem_map.mp hx
    positivity
  rw [h1, sum_map_div, Real.sqrt_div hs _]
  rw [Real.sqrt_sq hc]

theorem l2norm_fnormalize_row (eps : ℝ) (heps : 0 < eps) (r : List ℝ)
    (h : eps ≤ l2norm r) :
    l2norm (r.map (fun x => x / max (l2norm r) eps)) = 1 := by
  have hmax : max (l2norm r) eps = l2norm r := max_eq_left h
  have hpos : 0 < l2norm r := lt_of_lt_of_le heps h
  rw [hmax, l2norm_map_div r _ hpos.le, div_self hpos.ne']

/-- C4: every row of the embedding matrix returned by
`aggregate_and_spreadout` has L2 norm exactly 1, for every valid input whose
post-SGD-step embedding rows all have norm at least `F.normalize`'s
`eps = 1e-12` (the non-degenerate case: a row whose norm falls below `eps`
— e.g. an all-zero embedding row — is divided by `eps` instead of its norm
and is not normalized). -/
theorem C4_spreadout_rows_normalized
    (grad : ℝ → List (List ℝ) → List (List ℝ))
    (results : List (List (List ℝ) × ℕ × ℕ)) (num_clients num_features : ℕ)
    (nu lr : ℝ) (e0 ps m : List (List ℝ))
    (hE : buildEmbeddings num_clients num_features results = some e0)
    (hrows : ∀ row ∈ sgdStep grad nu lr e0, normEps ≤ l2norm row)
    (hagg : aggregate_and_spreadout grad results num_clients num_features nu lr =
      some (ps, m)) :
    ∀ row ∈ m, l2norm row = 1 := by
  unfold aggregate_and_spreadout at hagg
  simp only [hE] at hagg
  have hm : m = fnormalize normEps (sgdStep grad nu lr e0) := by
    cases hcase : listMapM reduceNpAdd (zipStar []
        (results.map (fun r =>
          r.1.dropLast.map (fun layer => layer.map (fun x => x * (r.2.1 : ℝ)))))) with
    | none =>
      rw [hcase] at hagg
      cases hagg
    | some sums =>
      rw [hcase] at hagg
      have := congrArg Prod.snd (Option.some.inj hagg)
      simpa using this.symm
  intro row hrow
  rw [hm] at hrow
  unfold fnormalize at hrow
  obtain ⟨r0, hr0, rfl⟩ := List.mem_map.mp hrow
  exact l2norm_fnormalize_row normEps normEps_pos r0 (hrows r0 hr0)

/-- Witness for C4 at a concrete input: one client, embedding `[3, 4]`, zero
regularizer gradient; the returned matrix row `[3/5, 4/5]` has L2 norm 1. -/
theorem C4_witness :
    aggregate_and_spreadout (fun _ mm => mm.map (fun r => r.map (fun _ => (0 : ℝ))))
        [([[3, 4]], 1, 0)] 1 2 1 1 = some ([[3 / 5, 4 / 5]], [[3 / 5, 4 / 5]]) ∧
      ∀ row ∈ [[(3 : ℝ) / 5, 4 / 5]], l2norm row = 1 := by
  have hb : buildEmbeddings 1 2 [([[(3 : ℝ), 4]], 1, 0)] = some [[3, 4]] := by
    unfold buildEmbeddings
    norm_num [listFoldlM, setRow, List.replicate]
  have h5 : l2norm [(3 : ℝ), 4] = 5 := by
    unfold l2norm
    have h : (([(3 : ℝ), 4].map (fun x => x ^ 2)).sum) = 25 := by norm_num
    rw [h, show (25 : ℝ) = 5 ^ 2 by norm_num, Real.sqrt_sq (by norm_num : (0 : ℝ) ≤ 5)]
  have hsg : sgdStep (fun _ mm => mm.map (fun r => r.map (fun _ => (0 : ℝ)))) 1 1
      [[(3 : ℝ), 4]] = [[(3 : ℝ), 4]] := by
    unfold sgdStep
    norm_num [List.replicate]
  have hrows0 : ∀ row ∈ sgdStep (fun _ mm => mm.map (fun r => r.map (fun _ => (0 : ℝ)))) 1 1
      [[(3 : ℝ), 4]], normEps ≤ l2norm row := by
    rw [hsg]
    intro row hrow
    rw [List.mem_singleton.mp hrow, h5]
    unfold normEps
    norm_num
  have hmax : max (5 : ℝ) normEps = 5 := by
    apply max_eq_left
    unfold normEps
    norm_num
  have hagg0 : aggregate_and_spreadout (fun _ mm => mm.map (fun r => r.map (fun _ => (0 : ℝ))))
      [([[3, 4]], 1, 0)] 1 2 1 1 = some ([[3 / 5, 4 / 5]], [[3 / 5, 4 / 5]]) := by
    unfold aggregate_and_spreadout
    simp only [hb]
    rw [hsg]
    simp [fnormalize, h5, hmax, zipStar, minLen, listMapM]
  exact ⟨hagg0, C4_spreadout_rows_normalized _ _ _ _ _ _ _ _ _ hb hrows0 hagg0⟩

theorem listFoldlM_setRow_some (num_clients num_features : ℕ)
    (results : List (List (List ℝ) × ℕ × ℕ))
    (hval : ∀ r ∈ results, r.2.2 < num_clients ∧
      ∃ last, r.1.getLast? = some last ∧ last.length = num_features) :
    ∀ m : List (List ℝ), m.length = num_clients →
      ∃ e, listFoldlM (fun m r =>
          match r.1.getLast? with
          | none => none
          | some last => setRow m r.2.2 last num_features) m results = some e := by
  induction results with
  | nil => exact fun m _ => ⟨m, rfl⟩
  | cons r rest ih =>
    intro m hm
    obtain ⟨hcid, last, hlast, hlen⟩ := hval r (by simp)
    have hset : setRow m r.2.2 last num_features = some (m.set r.2.2 last) := by
      unfold setRow
      rw [if_pos (by rw [hm]; exact hcid), if_pos hlen]
    obtain ⟨e, he⟩ := ih (fun x hx => hval x (List.mem_cons_of_mem _ hx))
      (m.set r.2.2 last) (by simp [hm])
    refine ⟨e, ?_⟩
    simp only [listFoldlM, hlast, hset]
    exact he

theorem buildEmbeddings_some (num_clients num_features : ℕ)
    (results : List (List (List ℝ) × ℕ × ℕ))
    (hval : ∀ r ∈ results, r.2.2 < num_clients ∧
      ∃ last, r.1.getLast? = some last ∧ last.length = num_features) :
    ∃ e, buildEmbeddings num_clients num_features results = some e := by
  unfold buildEmbeddings
  exact listFoldlM_setRow_some num_clients num_features results hval _ (by simp)

theorem getD_dropLast (l : List α) (i : ℕ) (h : i + 1 < l.length) (d : α) :
    l.dropLast.getD i d = l.getD i d := by
  have h1 : i < l.dropLast.length := by
    rw [List.length_dropLast]
    omega
  rw [getD_eq_getElem _ _ _ h1, getD_eq_getElem _ _ _ (by omega)]
  exact List.getElem_dropLast l i h1

theorem spreadout_sums_eq (results : List (List (List ℝ) × ℕ × ℕ)) (shape : List ℕ)
    (hne : results ≠ [])
    (hshape : ∀ r ∈ results, r.1.length = shape.length ∧
      ∀ i, i < shape.length → (r.1.getD i []).length = shape.getD i 0) :
    listMapM reduceNpAdd (zipStar [] (results.map (fun r =>
        r.1.dropLast.map (fun layer => layer.map (fun x => x * (r.2.1 : ℝ)))))) =
      some ((List.range (shape.length - 1)).map (fun i =>
        (List.range (shape.getD i 0)).map (fun j =>
          (results.map (fun r => ((r.1.getD i []).getD j 0) * (r.2.1 : ℝ))).sum))) := by
  set W := results.map (fun r =>
    r.1.dropLast.map (fun layer => layer.map (fun x => x * (r.2.1 : ℝ)))) with hW
  have hWne : W ≠ [] := by
    rw [hW]; simpa using hne
  have hWlen : ∀ w ∈ W, w.length = shape.length - 1 := by
    intro w hw
    rw [hW] at hw
    obtain ⟨r, hr, rfl⟩ := List.mem_map.mp hw
    simp [List.length_dropLast, (hshape r hr).1]
  rw [zipStar_eq_of_uniform [] W (shape.length - 1) hWne hWlen, listMapM_map]
  rw [listMapM_eq_map _ (fun i => (List.range (shape.getD i 0)).map (fun j =>
      (results.map (fun r => ((r.1.getD i []).getD j 0) * (r.2.1 : ℝ))).sum)) _ ?_]
  intro i hi
  have hiL : i < shape.length - 1 := List.mem_range.mp hi
  have hiL' : i < shape.length := by omega
  have hcol : W.map (fun l => l.getD i []) =
      results.map (fun r => (r.1.getD i []).map (fun x => x * (r.2.1 : ℝ))) := by
    rw [hW, List.map_map]
    apply List.map_congr_left
    intro r hr
    have hidrop : i < r.1.dropLast.length := by
      rw [List.length_dropLast, (hshape r hr).1]
      exact hiL
    show (r.1.dropLast.map _).getD i [] = _
    rw [getD_map_of_lt _ _ i hidrop [] []]
    rw [getD_dropLast r.1 i (by rw [(hshape r hr).1]; omega) []]
  rw [hcol, reduceNpAdd_sum _ (shape.getD i 0) (by simpa using hne) (by
    intro l hl
    obtain ⟨r, hr, rfl⟩ := List.mem_map.mp hl
    simpa using (hshape r hr).2 i hiL')]
  congr 1
  apply List.map_congr_left
  intro j hj
  have hjL : j < shape.getD i 0 := List.mem_range.mp hj
  apply congrArg List.sum
  rw [List.map_map]
  apply List.map_congr_left
  intro r hr
  have hjlen : j < (r.1.getD i []).length := by
    rw [(hshape r hr).2 i hiL']
    exact hjL
  exact getD_map_of_lt _ _ j hjlen 0 0

/-- C10: for every valid input (non-empty, shape-uniform results with
positive total sample count, in-range client ids and final layers of width
`num_features`), `aggregate_and_spreadout` succeeds and its returned pair is
internally consistent — the final layer of the returned parameter list is
exactly (the row-major flattening of) the returned embedding matrix, and the
preceding layers are the sample-count-weighted averages of the clients'
non-final layers. -/
theorem C10_spreadout_pair_consistent
    (grad : ℝ → List (List ℝ) → List (List ℝ))
    (results : List (List (List ℝ) × ℕ × ℕ)) (num_clients num_features : ℕ)
    (nu lr : ℝ) (shape : List ℕ)
    (hne : results ≠ [])
    (hshape : ∀ r ∈ results, r.1.length = shape.length ∧
      ∀ i, i < shape.length → (r.1.getD i []).length = shape.getD i 0)
    (hval : ∀ r ∈ results, r.2.2 < num_clients ∧
      ∃ last, r.1.getLast? = some last ∧ last.length = num_features)
    (hpos : 0 < (results.map (fun r => r.2.1)).sum) :
    ∃ ps m, aggregate_and_spreadout grad results num_clients num_features nu lr =
        some (ps, m) ∧
      ps.getLast? = some m.flatten ∧
      ps.dropLast = (List.range (shape.length - 1)).map (fun i =>
        (List.range (shape.getD i 0)).map (fun j =>
          (results.map (fun r => (r.2.1 : ℝ) * ((r.1.getD i []).getD j 0))).sum /
            (((results.map (fun r => r.2.1)).sum : ℕ) : ℝ))) := by
  obtain ⟨e0, he0⟩ := buildEmbeddings_some num_clients num_features results hval
  unfold aggregate_and_spreadout
  simp only [he0, spreadout_sums_eq results shape hne hshape]
  refine ⟨_, _, rfl, List.getLast?_concat _, ?_⟩
  rw [List.dropLast_concat, List.map_map]
  apply List.map_congr_left
  intro i _
  simp only [Function.comp_apply, List.map_map]
  apply List.map_congr_left
  intro j _
  simp only [Function.comp_apply]
  congr 1
  apply congrArg List.sum
  apply List.map_congr_left
  intro r _
  exact mul_comm _ _

/-- Witness for C10 at a concrete input: one client with layers `[2]` and
`[3, 4]`, sample count 1, client id 0. -/
theorem C10_witness :
    ∃ ps m, aggregate_and_spreadout
        (fun _ mm => mm.map (fun r => r.map (fun _ => (0 : ℝ))))
        [([[2], [3, 4]], 1, 0)] 1 2 1 1 = some (ps, m) ∧
      ps.getLast? = some m.flatten ∧
      ps.dropLast = (List.range (([1, 2] : List ℕ).length - 1)).map (fun i =>
        (List.range (([1, 2] : List ℕ).getD i 0)).map (fun j =>
          (([([[2], [3, 4]], 1, 0)] : List (List (List ℝ) × ℕ × ℕ)).map
              (fun r => (r.2.1 : ℝ) * ((r.1.getD i []).getD j 0))).sum /
            (((([([[2], [3, 4]], 1, 0)] : List (List (List ℝ) × ℕ × ℕ)).map
              (fun r => r.2.1)).sum : ℕ) : ℝ))) :=
  C10_spreadout_pair_consistent _ _ 1 2 1 1 [1, 2] (by decide)
    (by
      intro r hr
      rw [List.mem_singleton.mp hr]
      refine ⟨rfl, ?_⟩
      intro i hi
      have h2 : i < 2 := hi
      interval_cases i <;> rfl)
    (by
      intro r hr
      rw [List.mem_singleton.mp hr]
      exact ⟨by decide, [3, 4], rfl, rfl⟩)
    (by decide)
